import Mathlib

/-!
Verification of the finite-automaton visualizer (`visualizer.py`).

We shallowly embed the two algorithmic parts of the source:
* `visualize_dfa_path` — the DFA path simulation (the Graphviz rendering it
  performs is out of scope; we keep the `(accepted, path)` components of the
  returned triple);
* `calculate_epsilon_closures` — the stack-based epsilon-closure search.

States are modelled as `String` (the Python code uses strings) and input
symbols as `Char` (iterating a Python string yields its characters).  A Python
dict keyed by `(state, symbol)` is modelled as an association list with
first-match lookup, which agrees with dict lookup because dict keys are unique.
-/

namespace ToCEL

/-- First-match association-list lookup, modelling `dict.get((q, c), default)`
(`none` models an absent key). -/
def lookupT {α : Type} : List ((String × Char) × α) → String → Char → Option α
  | [], _, _ => none
  | (k, v) :: rest, q, c => if k = (q, c) then some v else lookupT rest q c

/-- The DFA dictionary shape from `visualizer.py`: `transitions` maps a
`(state, symbol)` key to the unique next state. -/
structure DFA where
  states : List String
  alphabet : List Char
  transitions : List ((String × Char) × String)
  start_state : String
  accept_states : List String

/-- The NFA dictionary shape from `visualizer.py`: `transitions` maps a
`(state, symbol)` key to a list of next states. -/
structure NFA where
  states : List String
  alphabet : List Char
  transitions : List ((String × Char) × List String)
  start_state : String
  accept_states : List String

/-- The `for symbol in s` loop of `visualize_dfa_path`: threads the running
`accepted` flag, the current state and the accumulated `path`; a missing
transition sets `accepted = False` and breaks out of the loop. -/
def pathLoop (dfa : DFA) : List Char → String → List String → Bool →
    Bool × String × List String
  | [], current, path, accepted => (accepted, current, path)
  | c :: rest, current, path, accepted =>
    match lookupT dfa.transitions current c with
    | none => (false, current, path)
    | some next => pathLoop dfa rest next (path ++ [next]) accepted

/-- Embedding of `visualize_dfa_path(dfa, s)` restricted to its computational
result `(accepted, path)`; the final
`accepted = accepted and current_state in dfa['accept_states']` is applied
after the loop, exactly as in the source. -/
def visualize_dfa_path (dfa : DFA) (s : List Char) : Bool × List String :=
  let r := pathLoop dfa s dfa.start_state [dfa.start_state] true
  (r.1 && decide (r.2.1 ∈ dfa.accept_states), r.2.2)

/-- The (partial) iterated transition function of a DFA: `some` of the state
reached after consuming the whole word, or `none` if some lookup is absent. -/
def runDFA (dfa : DFA) : String → List Char → Option String
  | q, [] => some q
  | q, c :: rest =>
    match lookupT dfa.transitions q c with
    | none => none
    | some q2 => runDFA dfa q2 rest

/-- Number of symbols of the word successfully consumed from state `q` before
the first missing transition (all of them if none is missing). -/
def consumedCount (dfa : DFA) : String → List Char → Nat
  | _, [] => 0
  | q, c :: rest =>
    match lookupT dfa.transitions q c with
    | none => 0
    | some q2 => consumedCount dfa q2 rest + 1

/-- The states appended to the path while consuming the word from state `q`
(one per successfully consumed symbol). -/
def visitedStates (dfa : DFA) : String → List Char → List String
  | _, [] => []
  | q, c :: rest =>
    match lookupT dfa.transitions q c with
    | none => []
    | some q2 => q2 :: visitedStates dfa q2 rest

/-- The state in which the simulation loop stops (the final state on full
consumption, the state before the failing symbol otherwise). -/
def lastState (dfa : DFA) : String → List Char → String
  | q, [] => q
  | q, c :: rest =>
    match lookupT dfa.transitions q c with
    | none => q
    | some q2 => lastState dfa q2 rest

lemma pathLoop_spec (dfa : DFA) :
    ∀ (l : List Char) (q : String) (path : List String) (acc : Bool),
      pathLoop dfa l q path acc =
        ((if (runDFA dfa q l).isSome then acc else false),
          lastState dfa q l, path ++ visitedStates dfa q l) := by
  intro l
  induction l with
  | nil => intro q path acc; simp [pathLoop, runDFA, lastState, visitedStates]
  | cons c rest ih =>
    intro q path acc
    cases h : lookupT dfa.transitions q c with
    | none => simp [pathLoop, runDFA, lastState, visitedStates, h]
    | some q2 => simp [pathLoop, runDFA, lastState, visitedStates, h, ih]

lemma visitedStates_length (dfa : DFA) :
    ∀ (l : List Char) (q : String),
      (visitedStates dfa q l).length = consumedCount dfa q l := by
  intro l
  induction l with
  | nil => intro q; simp [visitedStates, consumedCount]
  | cons c rest ih =>
    intro q
    simp only [visitedStates, consumedCount]
    cases h : lookupT dfa.transitions q c with
    | none => simp
    | some q2 => simp [ih q2]

lemma consumedCount_le (dfa : DFA) :
    ∀ (l : List Char) (q : String), consumedCount dfa q l ≤ l.length := by
  intro l
  induction l with
  | nil => intro q; simp [consumedCount]
  | cons c rest ih =>
    intro q
    simp only [consumedCount]
    cases h : lookupT dfa.transitions q c with
    | none => simp
    | some q2 =>
      simpa using Nat.succ_le_succ (ih q2)

lemma consumedCount_eq_iff (dfa : DFA) :
    ∀ (l : List Char) (q : String),
      consumedCount dfa q l = l.length ↔ (runDFA dfa q l).isSome = true := by
  intro l
  induction l with
  | nil => intro q; simp [consumedCount, runDFA]
  | cons c rest ih =>
    intro q
    simp only [consumedCount, runDFA]
    cases h : lookupT dfa.transitions q c with
    | none =>
      simp
    | some q2 =>
      simpa using ih q2

lemma runDFA_eq_some (dfa : DFA) :
    ∀ (l : List Char) (q qf : String),
      runDFA dfa q l = some qf → qf = lastState dfa q l := by
  intro l
  induction l with
  | nil => intro q qf h; simpa [runDFA, lastState] using h.symm
  | cons c rest ih =>
    intro q qf h
    simp only [runDFA] at h
    cases hl : lookupT dfa.transitions q c with
    | none => rw [hl] at h; exact absurd h (by simp)
    | some q2 =>
      rw [hl] at h
      simpa [lastState, hl] using ih q2 qf h

/-- The epsilon successors of a state: `nfa['transitions'].get((q, 'λ'), [])`
from the inner loop of `calculate_epsilon_closures`. -/
def epsSucc (nfa : NFA) (q : String) : List String :=
  match lookupT nfa.transitions q 'λ' with
  | some l => l
  | none => []

/-- The `while stack:` loop of `calculate_epsilon_closures`, with explicit
fuel standing in for the loop's own termination.  The head of the list is the
top of the stack (the source pops from / appends at the end of a Python list;
pushing the successors reversed preserves that LIFO visit order).  The source
keeps `visited` and `epsilon_closures[state]` in lockstep — elements are added
to both exactly when an unvisited state is popped — so a single `visited`
accumulator represents both.  Returns the final `(visited, stack)`; a normal
exit of the `while` loop is a run ending with an empty stack. -/
def closureLoop (nfa : NFA) : Nat → List String → List String →
    List String × List String
  | 0, visited, stack => (visited, stack)
  | _ + 1, visited, [] => (visited, [])
  | fuel + 1, visited, q :: stack =>
    if q ∈ visited then closureLoop nfa fuel visited stack
    else closureLoop nfa fuel (visited ++ [q]) ((epsSucc nfa q).reverse ++ stack)

/-- Every state that can ever be pushed on the stack: the concatenation of all
transition target lists. -/
def allTargets (nfa : NFA) : List String := (nfa.transitions.map Prod.snd).flatten

/-- Fuel sufficient for `closureLoop` to reach an empty stack when started on
`[s]` (proved below): one more than the initial value of the loop measure. -/
def fuelFor (nfa : NFA) (s : String) : Nat :=
  2 + (s :: allTargets nfa).length * ((allTargets nfa).length + 1)

/-- The epsilon closure of a single state as computed by the body of the
`for state in nfa['states']` loop: run the stack search from `s` with fresh
`visited`. -/
def closureFrom (nfa : NFA) (s : String) : List String :=
  (closureLoop nfa (fuelFor nfa s) [] [s]).1

/-- The `for state in nfa['states']` loop, building the closure table entry by
entry; the automaton is threaded through and returned so that absence of
mutation is an explicit theorem rather than a convention. -/
def closuresFold (nfa : NFA) : List String → List (String × List String) →
    List (String × List String) × NFA
  | [], acc => (acc, nfa)
  | s :: rest, acc => closuresFold nfa rest (acc ++ [(s, closureFrom nfa s)])

/-- Embedding of `calculate_epsilon_closures(nfa)`: the closure table (an
association list keyed by state, modelling the returned dict) together with
the automaton as it stands after the call. -/
def calculate_epsilon_closures (nfa : NFA) : List (String × List String) × NFA :=
  closuresFold nfa nfa.states []

/-- Dict access into the returned closure table. -/
def lookupS : List (String × List String) → String → Option (List String)
  | [], _ => none
  | (k, v) :: rest, q => if k = q then some v else lookupS rest q

/-- Reachability from `s` through zero or more epsilon-labelled transitions. -/
inductive EpsReach (nfa : NFA) (s : String) : String → Prop
  | refl : EpsReach nfa s s
  | step {q r : String} : EpsReach nfa s q → r ∈ epsSucc nfa q → EpsReach nfa s r

/-- Number of elements of `U` not yet visited. -/
def unvisitedCount (U visited : List String) : Nat :=
  (U.filter (fun x => decide (x ∉ visited))).length

/-- Termination measure of the closure search: each loop iteration strictly
decreases it. -/
def loopMeasure (nfa : NFA) (s : String) (visited stack : List String) : Nat :=
  stack.length +
    unvisitedCount (s :: allTargets nfa) visited * ((allTargets nfa).length + 1)

lemma lookupT_cons {α : Type} (k : String × Char) (v : α)
    (rest : List ((String × Char) × α)) (q : String) (c : Char) :
    lookupT ((k, v) :: rest) q c = if k = (q, c) then some v else lookupT rest q c :=
  rfl

lemma lookupT_mem_map_snd {α : Type} :
    ∀ (t : List ((String × Char) × α)) (q : String) (c : Char) (v : α),
      lookupT t q c = some v → v ∈ t.map Prod.snd := by
  intro t
  induction t with
  | nil => intro q c v h; simp [lookupT] at h
  | cons kv rest ih =>
    intro q c v h
    obtain ⟨k, w⟩ := kv
    by_cases hk : k = (q, c)
    · subst hk
      rw [lookupT_cons, if_pos rfl, Option.some.injEq] at h
      subst h
      exact List.mem_map_of_mem Prod.snd (List.mem_cons_self _ _)
    · rw [lookupT_cons, if_neg hk] at h
      exact List.mem_cons_of_mem _ (ih q c v h)

lemma epsSucc_mem_allTargets (nfa : NFA) (q r : String)
    (h : r ∈ epsSucc nfa q) : r ∈ allTargets nfa := by
  unfold epsSucc at h
  cases hl : lookupT nfa.transitions q 'λ' with
  | none => rw [hl] at h; simp at h
  | some l =>
    rw [hl] at h
    exact List.mem_flatten.mpr ⟨l, lookupT_mem_map_snd _ q 'λ' l hl, h⟩

lemma epsSucc_length_le (nfa : NFA) (q : String) :
    (epsSucc nfa q).length ≤ (allTargets nfa).length := by
  unfold epsSucc
  cases hl : lookupT nfa.transitions q 'λ' with
  | none => simp
  | some l =>
    have hmem : l ∈ nfa.transitions.map Prod.snd := lookupT_mem_map_snd _ q 'λ' l hl
    have : l.length ∈ (nfa.transitions.map Prod.snd).map List.length :=
      List.mem_map_of_mem List.length hmem
    have hsum : l.length ≤ ((nfa.transitions.map Prod.snd).map List.length).sum :=
      List.single_le_sum (fun x _ => Nat.zero_le x) _ this
    simpa [allTargets, List.length_flatten] using hsum

lemma filter_visited_snoc (U visited : List String) (q : String) :
    U.filter (fun x => decide (x ∉ visited ++ [q])) =
      (U.filter (fun x => decide (x ∉ visited))).filter (fun x => decide (x ≠ q)) := by
  rw [List.filter_filter]
  apply List.filter_congr
  intro x _
  by_cases hv : x ∈ visited <;> by_cases hq : x = q <;> simp [hv, hq]

lemma unvisitedCount_mono (U visited : List String) (q : String) :
    unvisitedCount U (visited ++ [q]) ≤ unvisitedCount U visited := by
  unfold unvisitedCount
  rw [filter_visited_snoc]
  exact List.length_filter_le _ _

lemma unvisitedCount_lt (U visited : List String) (q : String)
    (hU : q ∈ U) (hv : q ∉ visited) :
    unvisitedCount U (visited ++ [q]) < unvisitedCount U visited := by
  unfold unvisitedCount
  rw [filter_visited_snoc]
  exact List.length_filter_lt_length_iff_exists.mpr
    ⟨q, List.mem_filter.mpr ⟨hU, by simp [hv]⟩, by simp⟩

lemma closureLoop_nil (nfa : NFA) (fuel : Nat) (visited : List String) :
    closureLoop nfa (fuel + 1) visited [] = (visited, []) :=
  rfl

lemma closureLoop_cons (nfa : NFA) (fuel : Nat) (visited stack : List String)
    (q : String) :
    closureLoop nfa (fuel + 1) visited (q :: stack) =
      if q ∈ visited then closureLoop nfa fuel visited stack
      else closureLoop nfa fuel (visited ++ [q]) ((epsSucc nfa q).reverse ++ stack) :=
  rfl

lemma closureLoop_main (nfa : NFA) (s : String) :
    ∀ (fuel : Nat) (visited stack : List String),
      (∀ q ∈ stack, q ∈ s :: allTargets nfa) →
      (∀ q ∈ stack, EpsReach nfa s q) →
      (∀ q ∈ visited, EpsReach nfa s q) →
      (∀ q ∈ visited, ∀ r ∈ epsSucc nfa q, r ∈ visited ∨ r ∈ stack) →
      (s ∈ visited ∨ s ∈ stack) →
      loopMeasure nfa s visited stack < fuel →
      (closureLoop nfa fuel visited stack).2 = [] ∧
      visited ⊆ (closureLoop nfa fuel visited stack).1 ∧
      (∀ q ∈ (closureLoop nfa fuel visited stack).1, EpsReach nfa s q) ∧
      (∀ q ∈ (closureLoop nfa fuel visited stack).1, ∀ r ∈ epsSucc nfa q,
        r ∈ (closureLoop nfa fuel visited stack).1) ∧
      s ∈ (closureLoop nfa fuel visited stack).1 := by
  intro fuel
  induction fuel with
  | zero =>
    intro visited stack _ _ _ _ _ hmu
    exact absurd hmu (Nat.not_lt_zero _)
  | succ fuel ih =>
    intro visited stack hU hsr hvr hcl hs hmu
    cases stack with
    | nil =>
      rw [closureLoop_nil]
      refine ⟨rfl, List.Subset.refl _, hvr, ?_, ?_⟩
      · intro p hp r hr
        rcases hcl p hp r hr with h | h
        · exact h
        · simp at h
      · rcases hs with h | h
        · exact h
        · simp at h
    | cons q stack =>
      rw [closureLoop_cons]
      by_cases hq : q ∈ visited
      · rw [if_pos hq]
        apply ih
        · exact fun r hr => hU r (List.mem_cons_of_mem _ hr)
        · exact fun r hr => hsr r (List.mem_cons_of_mem _ hr)
        · exact hvr
        · intro p hp r hr
          rcases hcl p hp r hr with h | h
          · exact Or.inl h
          · rcases List.mem_cons.mp h with h | h
            · exact Or.inl (h ▸ hq)
            · exact Or.inr h
        · rcases hs with h | h
          · exact Or.inl h
          · rcases List.mem_cons.mp h with h | h
            · exact Or.inl (h ▸ hq)
            · exact Or.inr h
        · simp only [loopMeasure, List.length_cons] at hmu ⊢
          omega
      · rw [if_neg hq]
        have hqU : q ∈ s :: allTargets nfa := hU q (List.mem_cons_self _ _)
        have hqreach : EpsReach nfa s q := hsr q (List.mem_cons_self _ _)
        have H := ih (visited ++ [q]) ((epsSucc nfa q).reverse ++ stack)
          ?_ ?_ ?_ ?_ ?_ ?_
        · exact ⟨H.1, (List.subset_append_left visited [q]).trans H.2.1,
            H.2.2.1, H.2.2.2.1, H.2.2.2.2⟩
        · intro r hr
          rcases List.mem_append.mp hr with h | h
          · exact List.mem_cons_of_mem _
              (epsSucc_mem_allTargets nfa q r (List.mem_reverse.mp h))
          · exact hU r (List.mem_cons_of_mem _ h)
        · intro r hr
          rcases List.mem_append.mp hr with h | h
          · exact EpsReach.step hqreach (List.mem_reverse.mp h)
          · exact hsr r (List.mem_cons_of_mem _ h)
        · intro p hp
          rcases List.mem_append.mp hp with h | h
          · exact hvr p h
          · exact (by simpa using h : p = q) ▸ hqreach
        · intro p hp r hr
          rcases List.mem_append.mp hp with h | h
          · rcases hcl p h r hr with h2 | h2
            · exact Or.inl (List.mem_append_left _ h2)
            · rcases List.mem_cons.mp h2 with h3 | h3
              · exact Or.inl (List.mem_append_right _ (by simp [h3]))
              · exact Or.inr (List.mem_append_right _ h3)
          · have hpq : p = q := by simpa using h
            subst hpq
            exact Or.inr (List.mem_append_left _ (List.mem_reverse.mpr hr))
        · rcases hs with h | h
          · exact Or.inl (List.mem_append_left _ h)
          · rcases List.mem_cons.mp h with h | h
            · exact Or.inl (List.mem_append_right _ (by simp [h]))
            · exact Or.inr (List.mem_append_right _ h)
        · have hlt := unvisitedCount_lt (s :: allTargets nfa) visited q hqU hq
          have hE : (epsSucc nfa q).reverse.length ≤ (allTargets nfa).length := by
            rw [List.length_reverse]; exact epsSucc_length_le nfa q
          have hmul : unvisitedCount (s :: allTargets nfa) (visited ++ [q]) *
                ((allTargets nfa).length + 1) + ((allTargets nfa).length + 1) ≤
              unvisitedCount (s :: allTargets nfa) visited *
                ((allTargets nfa).length + 1) := by
            calc unvisitedCount (s :: allTargets nfa) (visited ++ [q]) *
                    ((allTargets nfa).length + 1) + ((allTargets nfa).length + 1)
                = (unvisitedCount (s :: allTargets nfa) (visited ++ [q]) + 1) *
                    ((allTargets nfa).length + 1) := by ring
              _ ≤ unvisitedCount (s :: allTargets nfa) visited *
                    ((allTargets nfa).length + 1) :=
                  Nat.mul_le_mul_right _ hlt
          simp only [loopMeasure, List.length_cons, List.length_append] at hmu ⊢
          omega

lemma closureFrom_spec (nfa : NFA) (s : String) :
    (closureLoop nfa (fuelFor nfa s) [] [s]).2 = [] ∧
    ∀ t, t ∈ closureFrom nfa s ↔ EpsReach nfa s t := by
  have hmu : loopMeasure nfa s [] [s] < fuelFor nfa s := by
    have hcount : unvisitedCount (s :: allTargets nfa) [] =
        (s :: allTargets nfa).length := by
      simp [unvisitedCount]
    simp only [loopMeasure, List.length_singleton, hcount, fuelFor]
    omega
  have H := closureLoop_main nfa s (fuelFor nfa s) [] [s]
    (by
      intro r hr
      have hrs : r = s := by simpa using hr
      subst hrs
      exact List.mem_cons_self _ _)
    (by
      intro r hr
      have hrs : r = s := by simpa using hr
      subst hrs
      exact EpsReach.refl)
    (by intro r hr; simp at hr)
    (by intro p hp; simp at hp)
    (Or.inr (by simp))
    hmu
  refine ⟨H.1, fun t => ⟨fun ht => H.2.2.1 t ht, fun ht => ?_⟩⟩
  induction ht with
  | refl => exact H.2.2.2.2
  | step hre hmem ih => exact H.2.2.2.1 _ ih _ hmem

lemma EpsReach.trans (nfa : NFA) {s q r : String}
    (h1 : EpsReach nfa s q) (h2 : EpsReach nfa q r) : EpsReach nfa s r := by
  induction h2 with
  | refl => exact h1
  | step hre hmem ih => exact EpsReach.step ih hmem

lemma closuresFold_fst (nfa : NFA) :
    ∀ (l : List String) (acc : List (String × List String)),
      (closuresFold nfa l acc).1 = acc ++ l.map (fun s => (s, closureFrom nfa s)) := by
  intro l
  induction l with
  | nil => intro acc; simp [closuresFold]
  | cons s rest ih => intro acc; simp [closuresFold, ih]

lemma closuresFold_snd (nfa : NFA) :
    ∀ (l : List String) (acc : List (String × List String)),
      (closuresFold nfa l acc).2 = nfa := by
  intro l
  induction l with
  | nil => intro acc; rfl
  | cons s rest ih => intro acc; exact ih _

lemma lookupS_map_self (f : String → List String) :
    ∀ (l : List String) (s : String), s ∈ l →
      lookupS (l.map (fun t => (t, f t))) s = some (f s) := by
  intro l
  induction l with
  | nil => intro s hs; simp at hs
  | cons a rest ih =>
    intro s hs
    by_cases ha : a = s
    · subst ha; simp [lookupS]
    · have hs' : s ∈ rest := by
        rcases List.mem_cons.mp hs with h | h
        · exact absurd h.symm ha
        · exact h
      simp [lookupS, ha, ih s hs']

lemma calc_closures_lookup (nfa : NFA) (s : String) (hs : s ∈ nfa.states) :
    lookupS (calculate_epsilon_closures nfa).1 s = some (closureFrom nfa s) := by
  unfold calculate_epsilon_closures
  rw [closuresFold_fst]
  simpa using lookupS_map_self (closureFrom nfa) nfa.states s hs

lemma consumed_at_missing (dfa : DFA) :
    ∀ (i : Nat) (l : List Char) (q0 q : String) (c : Char),
      runDFA dfa q0 (l.take i) = some q →
      l[i]? = some c →
      lookupT dfa.transitions q c = none →
      consumedCount dfa q0 l = i ∧ runDFA dfa q0 l = none := by
  intro i
  induction i with
  | zero =>
    intro l q0 q c h1 h2 h3
    have hq : q = q0 := by simpa [runDFA] using h1.symm
    subst hq
    cases l with
    | nil => simp at h2
    | cons c0 rest =>
      have hc0 : c0 = c := by simpa using h2
      subst hc0
      exact ⟨by simp [consumedCount, h3], by simp [runDFA, h3]⟩
  | succ j ih =>
    intro l q0 q c h1 h2 h3
    cases l with
    | nil => simp at h2
    | cons c0 rest =>
      have h2' : rest[j]? = some c := by simpa using h2
      rw [List.take_succ_cons] at h1
      cases hl : lookupT dfa.transitions q0 c0 with
      | none => rw [show runDFA dfa q0 (c0 :: rest.take j) =
            (match lookupT dfa.transitions q0 c0 with
              | none => none
              | some q2 => runDFA dfa q2 (rest.take j)) from rfl, hl] at h1; simp at h1
      | some q1 =>
        have h1' : runDFA dfa q1 (rest.take j) = some q := by
          simpa [runDFA, hl] using h1
        obtain ⟨hc, hr⟩ := ih rest q1 q c h1' h2' h3
        exact ⟨by simp [consumedCount, hl, hc], by simp [runDFA, hl, hr]⟩

/-- The mod-3 demo DFA built in the `__main__` driver of `visualizer.py`. -/
def exDFA : DFA where
  states := ["q0", "q1", "q2"]
  alphabet := ['0', '1']
  transitions := [(("q0", '0'), "q0"), (("q0", '1'), "q1"),
    (("q1", '0'), "q2"), (("q1", '1'), "q0"),
    (("q2", '0'), "q1"), (("q2", '1'), "q2")]
  start_state := "q0"
  accept_states := ["q2"]

/-- A DFA with a missing transition: no move on `'b'` from `a1`, and `a1` is
accepting, so a halt there exercises the missing-transition branch. -/
def exPartialDFA : DFA where
  states := ["a0", "a1"]
  alphabet := ['a', 'b']
  transitions := [(("a0", 'a'), "a1"), (("a1", 'a'), "a0")]
  start_state := "a0"
  accept_states := ["a1"]

/-- An NFA whose epsilon transitions form the cycle `n0 ↔ n1`, with `n1` also
reaching `n2` by epsilon. -/
def exNFA : NFA where
  states := ["n0", "n1", "n2"]
  alphabet := ['a']
  transitions := [(("n0", 'λ'), ["n1"]), (("n1", 'λ'), ["n0", "n2"]),
    (("n2", 'a'), ["n0"])]
  start_state := "n0"
  accept_states := ["n2"]

lemma accepted_eq (dfa : DFA) (s : List Char) :
    (visualize_dfa_path dfa s).1 =
      ((runDFA dfa dfa.start_state s).isSome &&
        decide (lastState dfa dfa.start_state s ∈ dfa.accept_states)) := by
  unfold visualize_dfa_path
  rw [pathLoop_spec]
  by_cases h : (runDFA dfa dfa.start_state s).isSome <;> simp [h]

lemma path_eq (dfa : DFA) (s : List Char) :
    (visualize_dfa_path dfa s).2 =
      dfa.start_state :: visitedStates dfa dfa.start_state s := by
  unfold visualize_dfa_path
  rw [pathLoop_spec]
  rfl

lemma chain_step (dfa : DFA) :
    ∀ (l : List Char) (q : String) (i : Nat) (q2 : String),
      (q :: visitedStates dfa q l)[i + 1]? = some q2 →
      ∃ q1 c, (q :: visitedStates dfa q l)[i]? = some q1 ∧ l[i]? = some c ∧
        lookupT dfa.transitions q1 c = some q2 := by
  intro l
  induction l with
  | nil => intro q i q2 h; simp [visitedStates] at h
  | cons c0 rest ih =>
    intro q i q2 h
    cases hl : lookupT dfa.transitions q c0 with
    | none =>
      have hv : visitedStates dfa q (c0 :: rest) = [] := by simp [visitedStates, hl]
      rw [hv] at h
      simp at h
    | some q1 =>
      have hv : visitedStates dfa q (c0 :: rest) = q1 :: visitedStates dfa q1 rest := by
        simp [visitedStates, hl]
      rw [hv] at h ⊢
      cases i with
      | zero =>
        have hq : q2 = q1 := by simpa using h.symm
        subst hq
        exact ⟨q, c0, by simp, by simp, hl⟩
      | succ j =>
        have h' : (q1 :: visitedStates dfa q1 rest)[j + 1]? = some q2 := by
          simpa using h
        obtain ⟨p, c, hp, hc, hstep⟩ := ih q1 j q2 h'
        exact ⟨p, c, by simpa using hp, by simpa using hc, hstep⟩

/-- Claim C1: the simulation accepts exactly when the whole string is consumed
without hitting a missing transition and the state reached after the last
symbol lies in the accepting-state set; an accepting state reached mid-path
does not make the string accepted. -/
theorem accepted_iff_consumed_and_final_accepting (dfa : DFA) (s : List Char) :
    (visualize_dfa_path dfa s).1 = true ↔
      ∃ qf, runDFA dfa dfa.start_state s = some qf ∧ qf ∈ dfa.accept_states := by
  rw [accepted_eq]
  constructor
  · intro h
    simp only [Bool.and_eq_true, decide_eq_true_eq] at h
    obtain ⟨h1, h2⟩ := h
    obtain ⟨qf, hqf⟩ := Option.isSome_iff_exists.mp h1
    refine ⟨qf, hqf, ?_⟩
    rw [runDFA_eq_some dfa s dfa.start_state qf hqf]
    exact h2
  · rintro ⟨qf, hqf, hacc⟩
    have h1 : (runDFA dfa dfa.start_state s).isSome = true := by simp [hqf]
    have h2 := runDFA_eq_some dfa s dfa.start_state qf hqf
    rw [← h2]
    simp [h1, hacc]

/-- Claim C2: if the first `i` symbols are consumable, reaching state `q`, and
the `i`-th symbol has no transition out of `q`, the simulation halts there:
the path has exactly `i + 1` states (none appended for the failing symbol) and
the string is rejected, even when the halting state is accepting. -/
theorem halt_on_missing_transition (dfa : DFA) (s : List Char) (i : Nat)
    (q : String) (c : Char)
    (hrun : runDFA dfa dfa.start_state (s.take i) = some q)
    (hc : s[i]? = some c)
    (hmiss : lookupT dfa.transitions q c = none) :
    (visualize_dfa_path dfa s).2.length = i + 1 ∧
    (visualize_dfa_path dfa s).1 = false := by
  obtain ⟨hcons, hnone⟩ :=
    consumed_at_missing dfa i s dfa.start_state q c hrun hc hmiss
  constructor
  · rw [path_eq]
    simp [visitedStates_length, hcons]
  · rw [accepted_eq, hnone]
    rfl

/-- Witness for C2, on the DFA with no `'b'` move out of the accepting state
`a1`: the path stops after the one consumed symbol and the string is
rejected. -/
theorem halt_on_missing_transition_witness :
    (visualize_dfa_path exPartialDFA ['a', 'b']).2.length = 1 + 1 ∧
    (visualize_dfa_path exPartialDFA ['a', 'b']).1 = false :=
  halt_on_missing_transition exPartialDFA ['a', 'b'] 1 "a1" 'b'
    (by decide) (by decide) (by decide)

/-- Claim C3: the path always has `1 +` the number of successfully consumed
symbols entries; that number is at most the string length, with equality
exactly when the whole string is consumable. -/
theorem path_length_eq_one_plus_consumed (dfa : DFA) (s : List Char) :
    (visualize_dfa_path dfa s).2.length = 1 + consumedCount dfa dfa.start_state s ∧
    consumedCount dfa dfa.start_state s ≤ s.length ∧
    (consumedCount dfa dfa.start_state s = s.length ↔
      (runDFA dfa dfa.start_state s).isSome = true) := by
  refine ⟨?_, consumedCount_le dfa s dfa.start_state,
    consumedCount_eq_iff dfa s dfa.start_state⟩
  rw [path_eq]
  simp [visitedStates_length, Nat.add_comm]

/-- C4 counterexample: on the DFA with no `'b'` move out of the start state,
the path for the one-symbol string `"b"` has length `1`, not `2`. -/
theorem path_length_not_always_strlen_succ :
    ¬ ((visualize_dfa_path exPartialDFA ['b']).2.length = ['b'].length + 1) := by
  decide

/-- Claim C4 (amended): when every symbol of the string is consumable the path
has length `len(string) + 1`; when a transition is missing it is shorter
(`1 +` the number of consumed symbols, per C3). -/
theorem path_length_strlen_succ_of_consumable (dfa : DFA) (s : List Char)
    (h : (runDFA dfa dfa.start_state s).isSome = true) :
    (visualize_dfa_path dfa s).2.length = s.length + 1 := by
  have h1 := (consumedCount_eq_iff dfa s dfa.start_state).mpr h
  rw [path_eq]
  simp [visitedStates_length, h1]

/-- Witness for the amended C4 on the demo DFA with a fully consumable
string. -/
theorem path_length_strlen_succ_of_consumable_witness :
    (visualize_dfa_path exDFA ['1', '0']).2.length = ['1', '0'].length + 1 :=
  path_length_strlen_succ_of_consumable exDFA ['1', '0'] (by decide)

/-- Claim C5: the empty string yields the one-state path `[start_state]` and
is accepted exactly when the start state is accepting. -/
theorem empty_string_path (dfa : DFA) :
    (visualize_dfa_path dfa []).2 = [dfa.start_state] ∧
    ((visualize_dfa_path dfa []).1 = true ↔
      dfa.start_state ∈ dfa.accept_states) := by
  constructor
  · rw [path_eq]
    simp [visitedStates]
  · rw [accepted_eq]
    simp [runDFA, lastState]

/-- Claim C6: every declared state is a member of its own computed epsilon
closure. -/
theorem epsilon_closures_reflexive (nfa : NFA) (s : String)
    (hs : s ∈ nfa.states) :
    ∃ c, lookupS (calculate_epsilon_closures nfa).1 s = some c ∧ s ∈ c := by
  refine ⟨closureFrom nfa s, calc_closures_lookup nfa s hs, ?_⟩
  exact ((closureFrom_spec nfa s).2 s).mpr EpsReach.refl

/-- Witness for C6 on the epsilon-cyclic example NFA. -/
theorem epsilon_closures_reflexive_witness :
    ∃ c, lookupS (calculate_epsilon_closures exNFA).1 "n0" = some c ∧ "n0" ∈ c :=
  epsilon_closures_reflexive exNFA "n0" (by decide)

/-- Claim C7: the closure search terminates normally (the supplied fuel
suffices to empty the stack, states already visited not being re-expanded),
and each declared state's computed closure is exactly the set of states
reachable from it by zero or more epsilon transitions — also across cyclic
epsilon loops. -/
theorem epsilon_closure_terminates_and_is_reachability (nfa : NFA) (s : String)
    (hs : s ∈ nfa.states) :
    (closureLoop nfa (fuelFor nfa s) [] [s]).2 = [] ∧
    ∃ c, lookupS (calculate_epsilon_closures nfa).1 s = some c ∧
      ∀ t, t ∈ c ↔ EpsReach nfa s t :=
  ⟨(closureFrom_spec nfa s).1,
    closureFrom nfa s, calc_closures_lookup nfa s hs, (closureFrom_spec nfa s).2⟩

/-- Witness for C7 on the example NFA whose epsilon edges form the cycle
`n0 ↔ n1`. -/
theorem epsilon_closure_terminates_witness :
    (closureLoop exNFA (fuelFor exNFA "n0") [] ["n0"]).2 = [] ∧
    ∃ c, lookupS (calculate_epsilon_closures exNFA).1 "n0" = some c ∧
      ∀ t, t ∈ c ↔ EpsReach exNFA "n0" t :=
  epsilon_closure_terminates_and_is_reachability exNFA "n0" (by decide)

/-- Claim C8: epsilon-closure computation is idempotent — the union of the
closures of all members of `closure(s)` is `closure(s)` itself. -/
theorem epsilon_closure_idempotent (nfa : NFA) (s x : String) :
    (∃ t ∈ closureFrom nfa s, x ∈ closureFrom nfa t) ↔ x ∈ closureFrom nfa s := by
  constructor
  · rintro ⟨t, ht, hx⟩
    exact ((closureFrom_spec nfa s).2 x).mpr
      (EpsReach.trans nfa (((closureFrom_spec nfa s).2 t).mp ht)
        (((closureFrom_spec nfa t).2 x).mp hx))
  · intro hx
    exact ⟨x, hx, ((closureFrom_spec nfa x).2 x).mpr EpsReach.refl⟩

/-- Claim C9: `calculate_epsilon_closures` leaves every field of its input
automaton unchanged; the closure table is a freshly built structure. -/
theorem epsilon_closures_input_unchanged (nfa : NFA) :
    (calculate_epsilon_closures nfa).2.states = nfa.states ∧
    (calculate_epsilon_closures nfa).2.alphabet = nfa.alphabet ∧
    (calculate_epsilon_closures nfa).2.transitions = nfa.transitions ∧
    (calculate_epsilon_closures nfa).2.start_state = nfa.start_state ∧
    (calculate_epsilon_closures nfa).2.accept_states = nfa.accept_states := by
  have h : (calculate_epsilon_closures nfa).2 = nfa := closuresFold_snd nfa nfa.states []
  rw [h]
  exact ⟨rfl, rfl, rfl, rfl, rfl⟩

/-- Claim C10: the returned path is a genuine run of the DFA: non-empty,
starting at the start state, and every adjacent pair of path states is related
by the transition table at the corresponding input symbol. -/
theorem dfa_path_is_valid_run (dfa : DFA) (s : List Char) :
    (visualize_dfa_path dfa s).2 ≠ [] ∧
    (visualize_dfa_path dfa s).2.head? = some dfa.start_state ∧
    ∀ (i : Nat) (q2 : String), (visualize_dfa_path dfa s).2[i + 1]? = some q2 →
      ∃ q1 c, (visualize_dfa_path dfa s).2[i]? = some q1 ∧ s[i]? = some c ∧
        lookupT dfa.transitions q1 c = some q2 := by
  rw [path_eq]
  exact ⟨by simp, by simp, fun i q2 h => chain_step dfa s dfa.start_state i q2 h⟩

/-- Witness for C10: the first step of the demo DFA's run on `"10"` is the
table transition `(q0, '1') ↦ q1`. -/
theorem dfa_path_is_valid_run_witness :
    ∃ q1 c, (visualize_dfa_path exDFA ['1', '0']).2[0]? = some q1 ∧
      ['1', '0'][0]? = some c ∧ lookupT exDFA.transitions q1 c = some "q1" :=
  (dfa_path_is_valid_run exDFA ['1', '0']).2.2 0 "q1" (by decide)

end ToCEL
